import Mathlib

/-!
# Verification of the math_solver client core

Shallow embedding of the core algorithms of the math_solver repository:

* the streaming-safe content parser `parseContentStreaming` and the final-mode
  parser `parseContent` of the chat message renderer
  (Math_Solver_Presentation.md, lines 567-636), plus the older
  `formatContent` revision (components/ChatMessageRenderer.tsx, lines 97-131);
* the SSE stream consumers of services/mathSolverApi.ts
  (`solveMathFromImageStream`, `sendChatMessageStream`, `ssePostXHR`);
* the request/timeout configuration (`fetchWithTimeout`, config/api.ts);
* the best-effort structured extractor (`extractJsonFromGptResponse`,
  `parseBackendResponse`, `extractNumericalSolution`, `parseFraction`).

Strings are modelled as `List Char`; JavaScript index-based scans
(`String.indexOf`, regex leftmost matching) are modelled by structurally
recursive scans over the character list, which visit exactly the same
positions in the same order.
-/

namespace MathSolver

/-- Character strings, the model of JavaScript strings. -/
abbrev Str := List Char

/-- `begins pat s`: the literal `pat` occurs at the start of `s`
(JS `startsWith`, or a regex literal matching at the current position). -/
def begins (pat s : Str) : Bool := decide (s.take pat.length = pat)

/-- `endsWith pat s`: the literal `pat` occurs at the end of `s`. -/
def endsWith (pat s : Str) : Bool :=
  decide (pat.length ≤ s.length ∧ s.drop (s.length - pat.length) = pat)

theorem begins_iff {pat s : Str} : begins pat s = true ↔ s.take pat.length = pat := by
  simp [begins]

theorem begins_decomp {pat s : Str} (h : begins pat s = true) :
    s = pat ++ s.drop pat.length := by
  conv_lhs => rw [← List.take_append_drop pat.length s]
  rw [begins_iff.mp h]

theorem begins_length {pat s : Str} (h : begins pat s = true) :
    pat.length ≤ s.length := by
  have h' := begins_iff.mp h
  have : (s.take pat.length).length = pat.length := by rw [h']
  simp only [List.length_take] at this
  omega

theorem begins_append (pat rest : Str) : begins pat (pat ++ rest) = true := by
  rw [begins_iff]
  simp

/-- `begins` for a two-character literal looks only at the first two
characters. -/
theorem begins_two {a b c : Char} {xs : Str} :
    begins [a, b] (c :: xs) = true ↔ c = a ∧ xs.take 1 = [b] := by
  rw [begins_iff]
  show (c :: xs).take 2 = [a, b] ↔ _
  rw [List.take_succ_cons]
  simp

theorem endsWith_iff {pat s : Str} : endsWith pat s = true ↔ ∃ a, s = a ++ pat := by
  constructor
  · intro h
    simp only [endsWith, decide_eq_true_eq] at h
    exact ⟨s.take (s.length - pat.length), by
      conv_lhs => rw [← List.take_append_drop (s.length - pat.length) s]
      rw [h.2]⟩
  · rintro ⟨a, rfl⟩
    simp only [endsWith, decide_eq_true_eq, List.length_append]
    refine ⟨by omega, ?_⟩
    have : a.length + pat.length - pat.length = a.length := by omega
    rw [this, List.drop_left]

theorem endsWith_append (pat a : Str) : endsWith pat (a ++ pat) = true :=
  endsWith_iff.mpr ⟨a, rfl⟩

theorem endsWith_trans {a b c : Str} (h1 : endsWith a b = true)
    (h2 : endsWith b c = true) : endsWith a c = true := by
  obtain ⟨p, rfl⟩ := endsWith_iff.mp h1
  obtain ⟨q, rfl⟩ := endsWith_iff.mp h2
  exact endsWith_iff.mpr ⟨q ++ p, by simp⟩

/-! ## Math block delimiters

The renderer recognises two display-math delimiter pairs:
`\[` … `\]` and `$$` … `$$` (source: `parseContentStreaming`,
Math_Solver_Presentation.md lines 579-636). -/

/-- The opening delimiter `\[` (the JS string literal `'\\['`). -/
def dOpen : Str := ['\\', '[']

/-- The closing delimiter `\]` (the JS string literal `'\\]'`). -/
def dClose : Str := ['\\', ']']

/-- The delimiter `$$`, used both as opener and closer. -/
def dollar : Str := ['$', '$']

/-- A math open delimiter (`\[` or `$$`) occurs at the start of `s`. -/
def isOpenDelim (s : Str) : Bool := begins dOpen s || begins dollar s

/-- Split `t` at the first position where a math open delimiter occurs:
the text before that position together with the suffix starting at it, or
`(t, none)` when no open delimiter occurs.  This is the structural
counterpart of `text.indexOf('\\[', i)` / `text.indexOf('$$', i)` and
`Math.min` over the found candidates in `parseContentStreaming`: both
visit positions left to right and stop at the first hit of either
delimiter. -/
def splitAtFirstOpen : Str → Str × Option Str
  | [] => ([], none)
  | c :: cs =>
    if isOpenDelim (c :: cs) then ([], some (c :: cs))
    else
      let r := splitAtFirstOpen cs
      (c :: r.1, r.2)

/-- First occurrence of the literal `close` in `s`
(JS `text.indexOf(close, start)`): the part strictly before it and the
part strictly after it, or `none` when `close` never occurs. -/
def findFirstClose (close : Str) : Str → Option (Str × Str)
  | [] => none
  | c :: cs =>
    if begins close (c :: cs) then some ([], (c :: cs).drop close.length)
    else (findFirstClose close cs).map (fun p => (c :: p.1, p.2))

theorem splitAtFirstOpen_append :
    ∀ t : Str, (splitAtFirstOpen t).1 ++ ((splitAtFirstOpen t).2.getD []) = t := by
  intro t
  induction t with
  | nil => rfl
  | cons c cs ih =>
    simp only [splitAtFirstOpen]
    split
    · rfl
    · simpa using ih

theorem splitAtFirstOpen_none {t : Str} (h : (splitAtFirstOpen t).2 = none) :
    (splitAtFirstOpen t).1 = t := by
  have := splitAtFirstOpen_append t
  rw [h] at this
  simpa using this

theorem splitAtFirstOpen_some {t r : Str} (h : (splitAtFirstOpen t).2 = some r) :
    (splitAtFirstOpen t).1 ++ r = t := by
  have := splitAtFirstOpen_append t
  rw [h] at this
  simpa using this

theorem splitAtFirstOpen_isOpen :
    ∀ {t r : Str}, (splitAtFirstOpen t).2 = some r → isOpenDelim r = true := by
  intro t
  induction t with
  | nil => intro r h; cases h
  | cons c cs ih =>
    intro r h
    simp only [splitAtFirstOpen] at h
    split at h
    · rename_i hopen
      cases h
      exact hopen
    · exact ih h

/-- The text scanned over before the first open delimiter contains no open
delimiter itself. -/
theorem splitAtFirstOpen_fst_clean :
    ∀ t : Str, (splitAtFirstOpen ((splitAtFirstOpen t).1)).2 = none := by
  intro t
  induction t with
  | nil => rfl
  | cons c cs ih =>
    simp only [splitAtFirstOpen]
    split
    · rfl
    · rename_i hno
      simp only []
      -- a two-character pattern matching at the head of `c :: pre` would
      -- also match at the head of `c :: cs`, because `pre` is an initial
      -- part of `cs`
      have key : ∀ a b : Char,
          begins [a, b] (c :: (splitAtFirstOpen cs).1) = true →
          begins [a, b] (c :: cs) = true := by
        intro a b hb
        obtain ⟨hc, htake⟩ := begins_two.mp hb
        refine begins_two.mpr ⟨hc, ?_⟩
        rcases hp : (splitAtFirstOpen cs).1 with _ | ⟨x, p'⟩
        · rw [hp] at htake; simp at htake
        · rw [hp] at htake
          have hx : x = b := by
            cases p' <;> simpa using htake
          have hpre := splitAtFirstOpen_append cs
          rw [hp] at hpre
          rw [← hpre, hx]
          simp
      have hheadno : isOpenDelim (c :: (splitAtFirstOpen cs).1) = false := by
        by_contra hcon
        rw [Bool.not_eq_false] at hcon
        apply hno
        simp only [isOpenDelim, dOpen, dollar, Bool.or_eq_true] at hcon ⊢
        rcases hcon with hb | hb
        · exact Or.inl (key '\\' '[' hb)
        · exact Or.inr (key '$' '$' hb)
      rw [show splitAtFirstOpen (c :: (splitAtFirstOpen cs).1) =
            (c :: (splitAtFirstOpen ((splitAtFirstOpen cs).1)).1,
             (splitAtFirstOpen ((splitAtFirstOpen cs).1)).2) by
        simp [splitAtFirstOpen, hheadno]]
      exact ih

theorem findFirstClose_some :
    ∀ {close s mid r : Str}, findFirstClose close s = some (mid, r) →
      mid ++ close ++ r = s := by
  intro close s
  induction s with
  | nil => intro mid r h; cases h
  | cons c cs ih =>
    intro mid r h
    simp only [findFirstClose] at h
    split at h
    · rename_i hb
      cases h
      simpa using (begins_decomp hb).symm
    · rcases hfc : findFirstClose close cs with _ | ⟨m', r'⟩
      · rw [hfc] at h; cases h
      · rw [hfc] at h
        simp only [Option.map_some'] at h
        cases h
        have := ih hfc
        simp only [List.cons_append]
        rw [List.append_assoc] at this ⊢
        rw [this]

/-! ## Content segments

`ContentSegment` of the spec: `{kind: text | math, content: string}`.  The
source represents it as `{ type: 'math' | 'text'; content: string }`. -/

/-- The two segment kinds produced by the content parsers. -/
inductive SegKind where
  | text
  | math
deriving DecidableEq, Repr

/-- One parsed content segment. -/
structure Seg where
  kind : SegKind
  content : Str
deriving DecidableEq, Repr

/-- `pushText` of `parseContentStreaming` (lines 584-588): emit a text
segment only when the covered range is non-empty. -/
def pushText (s : Str) : List Seg := if s = [] then [] else [⟨.text, s⟩]

/-- Concatenation of the contents of a segment list, in order. -/
def segsText (l : List Seg) : Str := l.foldr (fun s acc => s.content ++ acc) []

theorem segsText_append (a b : List Seg) :
    segsText (a ++ b) = segsText a ++ segsText b := by
  induction a with
  | nil => rfl
  | cons s a ih => simp [segsText, List.foldr_cons] at ih ⊢; rw [ih]

theorem segsText_pushText (s : Str) : segsText (pushText s) = s := by
  by_cases h : s = [] <;> simp [pushText, segsText, h]

/-- The streaming-safe parser `parseContentStreaming`
(Math_Solver_Presentation.md, lines 579-636).  The source scans with an
index `i`: it finds the next open delimiter (`\[` or `$$`, whichever comes
first), pushes the text before it, then searches for the matching close
delimiter from two characters later.  If found it pushes the whole
delimited block (delimiters included) as a `math` segment and continues
after the block; if not found it pushes the remainder from the open
delimiter to the end of input as a `text` segment and stops.  If no open
delimiter exists the remainder is one text segment. -/
def parseContentStreaming (t : Str) : List Seg :=
  match h : splitAtFirstOpen t with
  | (pre, none) => pushText pre
  | (pre, some rest) =>
    if begins dOpen rest then
      match h2 : findFirstClose dClose (rest.drop 2) with
      | some (mid, after) =>
        pushText pre ++ [⟨.math, dOpen ++ mid ++ dClose⟩] ++ parseContentStreaming after
      | none => pushText pre ++ [⟨.text, rest⟩]
    else
      match h2 : findFirstClose dollar (rest.drop 2) with
      | some (mid, after) =>
        pushText pre ++ [⟨.math, dollar ++ mid ++ dollar⟩] ++ parseContentStreaming after
      | none => pushText pre ++ [⟨.text, rest⟩]
termination_by t.length
decreasing_by
  · have hsplit : pre ++ rest = t := by
      have h2' : (splitAtFirstOpen t).2 = some rest := by rw [h]
      have hs := splitAtFirstOpen_some h2'
      have h1' : (splitAtFirstOpen t).1 = pre := by rw [h]
      rw [h1'] at hs
      exact hs
    have hlen := congrArg List.length hsplit
    have hclose := congrArg List.length (findFirstClose_some h2)
    simp only [List.length_append, List.length_drop] at hlen hclose
    simp only [dClose, List.length_cons, List.length_nil] at hclose
    omega
  · have hsplit : pre ++ rest = t := by
      have h2' : (splitAtFirstOpen t).2 = some rest := by rw [h]
      have hs := splitAtFirstOpen_some h2'
      have h1' : (splitAtFirstOpen t).1 = pre := by rw [h]
      rw [h1'] at hs
      exact hs
    have hlen := congrArg List.length hsplit
    have hclose := congrArg List.length (findFirstClose_some h2)
    simp only [List.length_append, List.length_drop] at hlen hclose
    simp only [dollar, List.length_cons, List.length_nil] at hclose
    omega

/-! Unfolding equations for `parseContentStreaming` (it recurses on a
well-founded measure, so we expose its five branches as lemmas). -/

theorem pcs_none {t pre : Str} (h : splitAtFirstOpen t = (pre, none)) :
    parseContentStreaming t = pushText pre := by
  rw [parseContentStreaming]
  split
  · rename_i pre' heq
    rw [h] at heq
    cases heq
    rfl
  · rename_i pre' rest heq
    rw [h] at heq
    cases heq

theorem pcs_display_found {t pre rest mid after : Str}
    (h : splitAtFirstOpen t = (pre, some rest))
    (hb : begins dOpen rest = true)
    (h2 : findFirstClose dClose (rest.drop 2) = some (mid, after)) :
    parseContentStreaming t =
      pushText pre ++ [⟨.math, dOpen ++ mid ++ dClose⟩] ++ parseContentStreaming after := by
  rw [parseContentStreaming]
  split
  · rename_i pre' heq
    rw [h] at heq; cases heq
  · rename_i pre' rest' heq
    rw [h] at heq
    cases heq
    rw [if_pos hb]
    split
    · rename_i mid' after' heq2
      rw [h2] at heq2
      cases heq2
      rfl
    · rename_i heq2
      rw [h2] at heq2
      cases heq2

theorem pcs_display_notfound {t pre rest : Str}
    (h : splitAtFirstOpen t = (pre, some rest))
    (hb : begins dOpen rest = true)
    (h2 : findFirstClose dClose (rest.drop 2) = none) :
    parseContentStreaming t = pushText pre ++ [⟨.text, rest⟩] := by
  rw [parseContentStreaming]
  split
  · rename_i pre' heq
    rw [h] at heq; cases heq
  · rename_i pre' rest' heq
    rw [h] at heq
    cases heq
    rw [if_pos hb]
    split
    · rename_i mid' after' heq2
      rw [h2] at heq2
      cases heq2
    · rfl

theorem pcs_dollar_found {t pre rest mid after : Str}
    (h : splitAtFirstOpen t = (pre, some rest))
    (hb : begins dOpen rest = false)
    (h2 : findFirstClose dollar (rest.drop 2) = some (mid, after)) :
    parseContentStreaming t =
      pushText pre ++ [⟨.math, dollar ++ mid ++ dollar⟩] ++ parseContentStreaming after := by
  rw [parseContentStreaming]
  split
  · rename_i pre' heq
    rw [h] at heq; cases heq
  · rename_i pre' rest' heq
    rw [h] at heq
    cases heq
    rw [if_neg (by simp [hb])]
    split
    · rename_i mid' after' heq2
      rw [h2] at heq2
      cases heq2
      rfl
    · rename_i heq2
      rw [h2] at heq2
      cases heq2

theorem pcs_dollar_notfound {t pre rest : Str}
    (h : splitAtFirstOpen t = (pre, some rest))
    (hb : begins dOpen rest = false)
    (h2 : findFirstClose dollar (rest.drop 2) = none) :
    parseContentStreaming t = pushText pre ++ [⟨.text, rest⟩] := by
  rw [parseContentStreaming]
  split
  · rename_i pre' heq
    rw [h] at heq; cases heq
  · rename_i pre' rest' heq
    rw [h] at heq
    cases heq
    rw [if_neg (by simp [hb])]
    split
    · rename_i mid' after' heq2
      rw [h2] at heq2
      cases heq2
    · rfl

/-- Round-trip law for the streaming parser: the segment contents
concatenate back to the input. -/
theorem parseContentStreaming_segsText (t : Str) :
    segsText (parseContentStreaming t) = t := by
  generalize hn : t.length = n
  induction n using Nat.strong_induction_on generalizing t with
  | _ n ih =>
    rcases h : splitAtFirstOpen t with ⟨pre, _ | rest⟩
    · rw [pcs_none h, segsText_pushText]
      have : (splitAtFirstOpen t).1 = pre := by rw [h]
      rw [← this]
      exact splitAtFirstOpen_none (by rw [h])
    · have hpre : pre ++ rest = t := by
        have := splitAtFirstOpen_some (t := t) (r := rest) (by rw [h])
        rwa [show (splitAtFirstOpen t).1 = pre by rw [h]] at this
      have hrest2 : 2 ≤ rest.length → rest.take 2 ++ rest.drop 2 = rest :=
        fun _ => List.take_append_drop 2 rest
      by_cases hb : begins dOpen rest = true
      · have hdec : rest = dOpen ++ rest.drop 2 := begins_decomp hb
        rcases h2 : findFirstClose dClose (rest.drop 2) with _ | ⟨mid, after⟩
        · rw [pcs_display_notfound h hb h2]
          rw [segsText_append, segsText_pushText]
          simp only [segsText, List.foldr_cons, List.foldr_nil, List.append_nil]
          exact hpre
        · have hmid : mid ++ dClose ++ after = rest.drop 2 := findFirstClose_some h2
          have hlt : after.length < n := by
            have l1 := congrArg List.length hpre
            have l2 := congrArg List.length hmid
            have l3 := congrArg List.length hdec
            simp only [List.length_append, List.length_drop, dOpen, dClose,
              List.length_cons, List.length_nil] at l1 l2 l3
            omega
          rw [pcs_display_found h hb h2]
          rw [segsText_append, segsText_append, segsText_pushText]
          have hrec := ih after.length hlt after rfl
          simp only [segsText, List.foldr_cons, List.foldr_nil, List.append_nil] at hrec ⊢
          rw [hrec, ← hpre]
          conv_rhs => rw [hdec, ← hmid]
          simp [List.append_assoc]
      · rw [Bool.not_eq_true] at hb
        have hdol : begins dollar rest = true := by
          have := splitAtFirstOpen_isOpen (t := t) (r := rest) (by rw [h])
          simp only [isOpenDelim, hb, Bool.false_or] at this
          exact this
        have hdec : rest = dollar ++ rest.drop 2 := begins_decomp hdol
        rcases h2 : findFirstClose dollar (rest.drop 2) with _ | ⟨mid, after⟩
        · rw [pcs_dollar_notfound h hb h2]
          rw [segsText_append, segsText_pushText]
          simp only [segsText, List.foldr_cons, List.foldr_nil, List.append_nil]
          exact hpre
        · have hmid : mid ++ dollar ++ after = rest.drop 2 := findFirstClose_some h2
          have hlt : after.length < n := by
            have l1 := congrArg List.length hpre
            have l2 := congrArg List.length hmid
            have l3 := congrArg List.length hdec
            simp only [List.length_append, List.length_drop, dollar,
              List.length_cons, List.length_nil] at l1 l2 l3
            omega
          rw [pcs_dollar_found h hb h2]
          rw [segsText_append, segsText_append, segsText_pushText]
          have hrec := ih after.length hlt after rfl
          simp only [segsText, List.foldr_cons, List.foldr_nil, List.append_nil] at hrec ⊢
          rw [hrec, ← hpre]
          conv_rhs => rw [hdec, ← hmid]
          simp [List.append_assoc]

/-- `s` contains an open math delimiter (`\[` or `$$`) somewhere. -/
def hasOpenDelim (s : Str) : Bool := (splitAtFirstOpen s).2.isSome

/-- `s` is a complete delimited math block: it starts with an opening
delimiter, ends with the matching closing delimiter, and is long enough to
contain both (`\[…\]` or `$$…$$`). -/
def completeMathBlock (s : Str) : Bool :=
  (begins dOpen s && endsWith dClose s || begins dollar s && endsWith dollar s)
    && decide (4 ≤ s.length)

/-- `s` starts with an open math delimiter whose matching close delimiter
never occurs in the rest of `s`: an unmatched trailing open delimiter
together with everything after it. -/
def danglingTail (s : Str) : Bool :=
  (begins dOpen s && (findFirstClose dClose (s.drop 2)).isNone) ||
  (begins dollar s && (findFirstClose dollar (s.drop 2)).isNone)

/-- Streaming-safety of `parseContentStreaming`: every `math` segment is a
complete delimited block, and every `text` segment either contains no open
delimiter at all or is the final dangling tail of the input (an unmatched
open delimiter together with everything after it, running to the end of
the input). -/
theorem parseContentStreaming_safe (t : Str) :
    ∀ seg ∈ parseContentStreaming t,
      (seg.kind = .math → completeMathBlock seg.content = true) ∧
      (seg.kind = .text → hasOpenDelim seg.content = false ∨
        (danglingTail seg.content = true ∧ endsWith seg.content t = true)) := by
  generalize hn : t.length = n
  induction n using Nat.strong_induction_on generalizing t with
  | _ n ih =>
    have hpreclean : ∀ {pre o}, splitAtFirstOpen t = (pre, o) →
        ∀ seg ∈ pushText pre,
          (seg.kind = .math → completeMathBlock seg.content = true) ∧
          (seg.kind = .text → hasOpenDelim seg.content = false ∨
            (danglingTail seg.content = true ∧ endsWith seg.content t = true)) := by
      intro pre o h seg hseg
      have hclean : hasOpenDelim pre = false := by
        have := splitAtFirstOpen_fst_clean t
        rw [show (splitAtFirstOpen t).1 = pre by rw [h]] at this
        simp [hasOpenDelim, this]
      by_cases hp : pre = []
      · rw [hp] at hseg; simp [pushText] at hseg
      · rw [show pushText pre = [⟨.text, pre⟩] by simp [pushText, hp]] at hseg
        simp only [List.mem_singleton] at hseg
        subst hseg
        refine ⟨fun hk => (by cases hk), fun _ => Or.inl hclean⟩
    rcases h : splitAtFirstOpen t with ⟨pre, _ | rest⟩
    · rw [pcs_none h]
      exact hpreclean h
    · have hpre : pre ++ rest = t := by
        have := splitAtFirstOpen_some (t := t) (r := rest) (by rw [h])
        rwa [show (splitAtFirstOpen t).1 = pre by rw [h]] at this
      have hsuffrest : endsWith rest t = true := by
        rw [← hpre]; exact endsWith_append rest pre
      by_cases hb : begins dOpen rest = true
      · have hdec : rest = dOpen ++ rest.drop 2 := begins_decomp hb
        rcases h2 : findFirstClose dClose (rest.drop 2) with _ | ⟨mid, after⟩
        · rw [pcs_display_notfound h hb h2]
          intro seg hseg
          rcases List.mem_append.mp hseg with hseg | hseg
          · exact hpreclean h seg hseg
          · simp only [List.mem_singleton] at hseg
            subst hseg
            exact ⟨fun hk => (by cases hk),
              fun _ => Or.inr ⟨by simp [danglingTail, hb, h2], hsuffrest⟩⟩
        · have hmid : mid ++ dClose ++ after = rest.drop 2 := findFirstClose_some h2
          have hlt : after.length < n := by
            have l1 := congrArg List.length hpre
            have l2 := congrArg List.length hmid
            have l3 := congrArg List.length hdec
            simp only [List.length_append, List.length_drop, dOpen, dClose,
              List.length_cons, List.length_nil] at l1 l2 l3
            omega
          have hsuffafter : endsWith after t = true := by
            refine endsWith_trans ?_ hsuffrest
            rw [hdec, ← hmid]
            refine endsWith_iff.mpr ⟨dOpen ++ (mid ++ dClose), by simp⟩
          rw [pcs_display_found h hb h2]
          intro seg hseg
          rcases List.mem_append.mp hseg with hseg | hseg
          · rcases List.mem_append.mp hseg with hseg | hseg
            · exact hpreclean h seg hseg
            · simp only [List.mem_singleton] at hseg
              subst hseg
              refine ⟨fun _ => ?_, fun hk => by cases hk⟩
              have hlen : 4 ≤ (dOpen ++ mid ++ dClose).length := by
                simp [dOpen, dClose]
              simp only [completeMathBlock, Bool.and_eq_true, Bool.or_eq_true]
              refine ⟨Or.inl ⟨?_, ?_⟩, by simpa using hlen⟩
              · rw [List.append_assoc]
                exact begins_append dOpen (mid ++ dClose)
              · exact endsWith_append dClose (dOpen ++ mid)
          · have hrec := ih after.length hlt after rfl seg hseg
            refine ⟨hrec.1, fun hk => ?_⟩
            rcases hrec.2 hk with hc | ⟨hd, hsuf⟩
            · exact Or.inl hc
            · exact Or.inr ⟨hd, endsWith_trans hsuf hsuffafter⟩
      · rw [Bool.not_eq_true] at hb
        have hdol : begins dollar rest = true := by
          have := splitAtFirstOpen_isOpen (t := t) (r := rest) (by rw [h])
          simp only [isOpenDelim, hb, Bool.false_or] at this
          exact this
        have hdec : rest = dollar ++ rest.drop 2 := begins_decomp hdol
        rcases h2 : findFirstClose dollar (rest.drop 2) with _ | ⟨mid, after⟩
        · rw [pcs_dollar_notfound h hb h2]
          intro seg hseg
          rcases List.mem_append.mp hseg with hseg | hseg
          · exact hpreclean h seg hseg
          · simp only [List.mem_singleton] at hseg
            subst hseg
            exact ⟨fun hk => (by cases hk),
              fun _ => Or.inr ⟨by simp [danglingTail, hdol, h2], hsuffrest⟩⟩
        · have hmid : mid ++ dollar ++ after = rest.drop 2 := findFirstClose_some h2
          have hlt : after.length < n := by
            have l1 := congrArg List.length hpre
            have l2 := congrArg List.length hmid
            have l3 := congrArg List.length hdec
            simp only [List.length_append, List.length_drop, dollar,
              List.length_cons, List.length_nil] at l1 l2 l3
            omega
          have hsuffafter : endsWith after t = true := by
            refine endsWith_trans ?_ hsuffrest
            rw [hdec, ← hmid]
            refine endsWith_iff.mpr ⟨dollar ++ (mid ++ dollar), by simp⟩
          rw [pcs_dollar_found h hb h2]
          intro seg hseg
          rcases List.mem_append.mp hseg with hseg | hseg
          · rcases List.mem_append.mp hseg with hseg | hseg
            · exact hpreclean h seg hseg
            · simp only [List.mem_singleton] at hseg
              subst hseg
              refine ⟨fun _ => ?_, fun hk => by cases hk⟩
              have hlen : 4 ≤ (dollar ++ mid ++ dollar).length := by
                simp [dollar]
              simp only [completeMathBlock, Bool.and_eq_true, Bool.or_eq_true]
              refine ⟨Or.inr ⟨?_, ?_⟩, by simpa using hlen⟩
              · rw [List.append_assoc]
                exact begins_append dollar (mid ++ dollar)
              · exact endsWith_append dollar (dollar ++ mid)
          · have hrec := ih after.length hlt after rfl seg hseg
            refine ⟨hrec.1, fun hk => ?_⟩
            rcases hrec.2 hk with hc | ⟨hd, hsuf⟩
            · exact Or.inl hc
            · exact Or.inr ⟨hd, endsWith_trans hsuf hsuffafter⟩

/-! ## SSE stream consumers (services/mathSolverApi.ts)

A parsed `data: ` line decodes to one of the three event shapes
(`StreamChunk`, `StreamFullResponse`, `StreamError`, lines 45-59).  The
consumer loops are modelled at event granularity: the input list is the
sequence of successfully JSON-parsed `data: ` lines, in arrival order
(malformed lines are skipped by every path and dispatch nothing). -/

/-- One parsed SSE event (`StreamEvent`, mathSolverApi.ts lines 45-59). -/
inductive StreamEvent where
  | chunk (text problem_id : Str)
  | fullResponse (text problem_id : Str)
  | errorEvent (message : Str)
deriving DecidableEq, Repr

/-- One callback invocation made by `solveMathFromImageStream`. -/
inductive SolveCall where
  | onChunk (text problem_id : Str)
  | onComplete (text problem_id : Str)
  | onError (message : Str)
deriving DecidableEq, Repr

/-- One callback invocation made by `sendChatMessageStream`. -/
inductive ChatCall where
  | onChunk (text : Str)
  | onComplete (text : Str)
  | onError (message : Str)
deriving DecidableEq, Repr

/-- The web (fetch reader) event loop of `solveMathFromImageStream`
(mathSolverApi.ts lines 888-929; the `text()` fallback at lines 850-875
dispatches identically).  A chunk event is dispatched and consumption
continues; a `full_response` or `error` event is dispatched and the
function returns.  When the transport reports completion (`done`) the loop
just breaks: the accumulated chunk text (`accumulatedResponse`, built at
line 912) is never used, so no completion is synthesized. -/
def solveMathFromImageStreamLoop : List StreamEvent → List SolveCall
  | [] => []
  | .chunk c pid :: rest => .onChunk c pid :: solveMathFromImageStreamLoop rest
  | .fullResponse f pid :: _ => [.onComplete f pid]
  | .errorEvent m :: _ => [.onError m]

/-- The web (fetch reader) event loop of `sendChatMessageStream`
(mathSolverApi.ts lines 1058-1081), carrying the `accumulated` chunk text:
if the stream ends without an explicit `full_response`, line 1081 invokes
`onComplete(accumulated)` provided `accumulated` is non-empty (JS
truthiness of the string). -/
def sendChatMessageStreamLoopFrom : List StreamEvent → Str → List ChatCall
  | [], acc => if acc = [] then [] else [.onComplete acc]
  | .chunk c _ :: rest, acc => .onChunk c :: sendChatMessageStreamLoopFrom rest (acc ++ c)
  | .fullResponse f _ :: _, _ => [.onComplete f]
  | .errorEvent m :: _, _ => [.onError m]

/-- The chat stream loop started with an empty accumulator
(`let accumulated = ''`, line 1061). -/
def sendChatMessageStreamLoop (events : List StreamEvent) : List ChatCall :=
  sendChatMessageStreamLoopFrom events []

/-- The native transport path: `ssePostXHR` (mathSolverApi.ts lines
318-395) parses every completed `data: ` line of the XHR response text and
hands each parsed event to `onEvent` — it never stops dispatching after a
`full_response` or `error` event.  `solveMathFromImageStream` installs the
dispatcher of lines 789-797 as `onEvent`, so each event maps to one
callback invocation. -/
def ssePostXHRSolveDispatch (events : List StreamEvent) : List SolveCall :=
  events.map fun e =>
    match e with
    | .chunk c pid => .onChunk c pid
    | .fullResponse f pid => .onComplete f pid
    | .errorEvent m => .onError m

/-- A callback trace stops at the first terminal callback: `onComplete` or
`onError` is only ever the last invocation. -/
def solveTerminalStops : List SolveCall → Bool
  | [] => true
  | .onChunk _ _ :: rest => solveTerminalStops rest
  | .onComplete _ _ :: rest => rest.isEmpty
  | .onError _ :: rest => rest.isEmpty

/-- Same property for the chat callback trace. -/
def chatTerminalStops : List ChatCall → Bool
  | [] => true
  | .onChunk _ :: rest => chatTerminalStops rest
  | .onComplete _ :: rest => rest.isEmpty
  | .onError _ :: rest => rest.isEmpty

/-- The list of `onComplete` payloads in a solve callback trace. -/
def solveCompletions : List SolveCall → List Str
  | [] => []
  | .onComplete f _ :: rest => f :: solveCompletions rest
  | _ :: rest => solveCompletions rest

/-- The list of `onComplete` payloads in a chat callback trace. -/
def chatCompletions : List ChatCall → List Str
  | [] => []
  | .onComplete f :: rest => f :: chatCompletions rest
  | _ :: rest => chatCompletions rest

theorem solveMathFromImageStreamLoop_stops (events : List StreamEvent) :
    solveTerminalStops (solveMathFromImageStreamLoop events) = true := by
  induction events with
  | nil => rfl
  | cons e rest ih =>
    cases e <;> simp [solveMathFromImageStreamLoop, solveTerminalStops, ih]

theorem sendChatMessageStreamLoopFrom_stops (events : List StreamEvent) :
    ∀ acc, chatTerminalStops (sendChatMessageStreamLoopFrom events acc) = true := by
  induction events with
  | nil =>
    intro acc
    by_cases h : acc = [] <;>
      simp [sendChatMessageStreamLoopFrom, chatTerminalStops, h]
  | cons e rest ih =>
    intro acc
    cases e <;> simp [sendChatMessageStreamLoopFrom, chatTerminalStops, ih]

/-! ## Request timeout configuration

`fetchWithTimeout` (mathSolverApi.ts lines 287-312) arms an
`AbortController` with a `setTimeout(timeoutMs)`; when the abort fires the
fetch rejects with an `AbortError`, which the catch block converts into a
single thrown `Error` whose message reports the elapsed seconds.  All
other network calls in the service use the raw `fetch` or
`XMLHttpRequest` transports, which carry no timeout at all.  Every call
site is recorded below with the timeout it passes (`none` for the raw
transports). -/

/-- Default request timeout, `API_CONFIG.TIMEOUT` (config/api.ts line 58). -/
def API_CONFIG_TIMEOUT : Nat := 95000

/-- One network call site of `MathSolverApiService` with the timeout
configuration its transport is given. -/
structure RequestSite where
  caller : String
  endpoint : String
  timeoutMs : Option Nat
deriving DecidableEq, Repr

/-- Every transport invocation in services/mathSolverApi.ts, in source
order.  `some n` means the call goes through `fetchWithTimeout` with
timeout `n` milliseconds (the default parameter value is
`API_CONFIG.TIMEOUT`); `none` means the call uses raw `fetch` (or
`ssePostXHR`), which installs no timeout. -/
def serviceRequestSites : List RequestSite :=
  [ ⟨"verifyToken", "/me", some API_CONFIG_TIMEOUT⟩,
    ⟨"checkHealth", "/", some 5000⟩,
    ⟨"register", "/auth/register", some API_CONFIG_TIMEOUT⟩,
    ⟨"login", "/auth/login", some API_CONFIG_TIMEOUT⟩,
    ⟨"solveMathFromImage", "/solve", some 95000⟩,
    ⟨"solveMathFromFile", "/solve", some 95000⟩,
    ⟨"solveMathFromImageStream (native XHR)", "/solve/stream", none⟩,
    ⟨"solveMathFromImageStream (web fetch)", "/solve/stream", none⟩,
    ⟨"testStreamingEndpoint", "/", none⟩,
    ⟨"sendChatMessage", "/chat", none⟩,
    ⟨"sendChatMessageStream (native XHR)", "/chat/stream", none⟩,
    ⟨"sendChatMessageStream (web fetch)", "/chat/stream", none⟩,
    ⟨"sendImageMessage", "/solve/image", none⟩ ]

/-- Possible outcomes of the wrapped `fetch` call as observed by
`fetchWithTimeout`'s try/catch. -/
inductive FetchOutcome where
  | completed (status : Nat)
  | timedOutAbort
  | networkError (message : String)
deriving DecidableEq, Repr

/-- `fetchWithTimeout` (mathSolverApi.ts lines 287-312): a successful
response is returned; an `AbortError` (the armed timeout fired and aborted
the transport) is converted into exactly one thrown error reporting the
elapsed seconds; any other failure is rethrown unchanged.  All call sites
pass whole-second multiples (95000, 5000 or the 95000 default), for which
the JS float division `timeoutMs / 1000` agrees with natural division. -/
def fetchWithTimeout (timeoutMs : Nat) : FetchOutcome → Except String Nat
  | .completed status => .ok status
  | .timedOutAbort =>
      .error ("Request timed out after " ++ Nat.repr (timeoutMs / 1000) ++ " seconds")
  | .networkError m => .error m

/-! ## `JSON.parse` model

The structured extractor (`extractJsonFromGptResponse`,
mathSolverApi.ts lines 486-557) repeatedly calls `JSON.parse` inside
try/catch.  We model parsed values and a standard strict JSON parser:
`jsonParse` returns `none` exactly where `JSON.parse` throws.  Numbers
are modelled as exact rationals (IEEE rounding plays no role in any
claim: every numeric comparison in the claims is exactly representable).
Brace and backtick characters are written via `Char.ofNat` codes. -/

/-- The open brace character. -/
def lbrace : Char := Char.ofNat 123

/-- The close brace character. -/
def rbrace : Char := Char.ofNat 125

/-- The backtick character. -/
def btick : Char := Char.ofNat 96

/-- A parsed JSON value.  Numbers are kept as exact integer fractions
`numerator / denominator` (denominator positive by construction); the
rational value is recovered by `Json.numVal`. -/
inductive Json where
  | null
  | bool (b : Bool)
  | num (numerator denominator : ℤ)
  | str (s : Str)
  | arr (elems : List Json)
  | obj (fields : List (Str × Json))

/-- JSON insignificant whitespace (space, tab, line feed, carriage
return). -/
def isJsonWs (c : Char) : Bool := c = ' ' || c = '\t' || c = '\n' || c = '\r'

/-- Drop leading JSON whitespace. -/
def skipJsonWs : Str → Str
  | [] => []
  | c :: cs => if isJsonWs c then skipJsonWs cs else c :: cs

/-- Decimal digit test. -/
def isDigitCh (c : Char) : Bool := decide ('0' ≤ c ∧ c ≤ '9')

/-- Value of a run of decimal digits. -/
def digitsToNat (ds : Str) : Nat := ds.foldl (fun a c => a * 10 + (c.toNat - 48)) 0

/-- Value of a hexadecimal digit. -/
def hexVal (c : Char) : Option Nat :=
  if '0' ≤ c ∧ c ≤ '9' then some (c.toNat - 48)
  else if 'a' ≤ c ∧ c ≤ 'f' then some (c.toNat - 87)
  else if 'A' ≤ c ∧ c ≤ 'F' then some (c.toNat - 55)
  else none

/-- A JSON single-character string escape. -/
def escChar (e : Char) : Option Char :=
  if e = '"' then some '"'
  else if e = '\\' then some '\\'
  else if e = '/' then some '/'
  else if e = 'b' then some (Char.ofNat 8)
  else if e = 'f' then some (Char.ofNat 12)
  else if e = 'n' then some '\n'
  else if e = 'r' then some '\r'
  else if e = 't' then some '\t'
  else none

/-- Parse the body of a JSON string after the opening quote, up to the
closing quote; returns the decoded characters and the rest of the input.
(`Char.ofNat` maps invalid `\u` scalar values to the null character; no
claim involves surrogate escapes.) -/
def parseStringBody : Str → Option (Str × Str)
  | [] => none
  | c :: rest =>
    if c = '"' then some ([], rest)
    else if c = '\\' then
      match rest with
      | [] => none
      | e :: rest2 =>
        if e = 'u' then
          match rest2 with
          | h1 :: h2 :: h3 :: h4 :: rest3 =>
            match hexVal h1, hexVal h2, hexVal h3, hexVal h4 with
            | some a, some b, some c', some d =>
              (parseStringBody rest3).map
                (fun p => (Char.ofNat (((a * 16 + b) * 16 + c') * 16 + d) :: p.1, p.2))
            | _, _, _, _ => none
          | _ => none
        else
          match escChar e with
          | some ec => (parseStringBody rest2).map (fun p => (ec :: p.1, p.2))
          | none => none
    else if c.toNat < 32 then none
    else (parseStringBody rest).map (fun p => (c :: p.1, p.2))

/-- Parse a JSON number (`-? (0 | [1-9][0-9]*) (. [0-9]+)? ([eE][+-]?[0-9]+)?`)
at the start of `s`, as an exact integer fraction
`(numerator, denominator)`. -/
def parseJsonNumber (s : Str) : Option ((ℤ × ℤ) × Str) :=
  let signed : Bool × Str :=
    match s with
    | '-' :: r => (true, r)
    | _ => (false, s)
  let intPart : Option (Nat × Str) :=
    match signed.2 with
    | c :: r =>
      if c = '0' then some (0, r)
      else if isDigitCh c then
        let p := r.span isDigitCh
        some (digitsToNat (c :: p.1), p.2)
      else none
    | [] => none
  match intPart with
  | none => none
  | some (i, s2) =>
    let fracPart : Option ((Nat × Nat) × Str) :=
      match s2 with
      | '.' :: r2 =>
        let p := r2.span isDigitCh
        if p.1 = [] then none
        else some ((digitsToNat p.1, p.1.length), p.2)
      | _ => some ((0, 0), s2)
    match fracPart with
    | none => none
    | some (f, s3) =>
      let expPart : Option (ℤ × Str) :=
        match s3 with
        | e :: r3 =>
          if e = 'e' ∨ e = 'E' then
            let esigned : Bool × Str :=
              match r3 with
              | '+' :: r4 => (false, r4)
              | '-' :: r4 => (true, r4)
              | _ => (false, r3)
            let p := esigned.2.span isDigitCh
            if p.1 = [] then none
            else some ((if esigned.1 then -(digitsToNat p.1 : ℤ) else (digitsToNat p.1 : ℤ)), p.2)
          else some (0, s3)
        | [] => some (0, s3)
      match expPart with
      | none => none
      | some (e, s4) =>
        -- value = ± (i.f) * 10^e = ± mantissa * 10^(e - fracLen)
        let mantissa : Nat := i * 10 ^ f.2 + f.1
        let shift : ℤ := e - (f.2 : ℤ)
        let nd : ℤ × ℤ :=
          if 0 ≤ shift then ((mantissa : ℤ) * 10 ^ shift.toNat, 1)
          else ((mantissa : ℤ), (10 : ℤ) ^ (-shift).toNat)
        some ((if signed.1 then -nd.1 else nd.1, nd.2), s4)

mutual

/-- Parse one JSON value (fuel-indexed; the callers supply enough fuel for
any input, see `jsonParse`). -/
def parseJsonValue : Nat → Str → Option (Json × Str)
  | 0, _ => none
  | Nat.succ fuel, s0 =>
    let s := skipJsonWs s0
    match s with
    | [] => none
    | c :: r =>
      if c = '"' then (parseStringBody r).map (fun p => (Json.str p.1, p.2))
      else if begins ['n', 'u', 'l', 'l'] s then some (.null, s.drop 4)
      else if begins ['t', 'r', 'u', 'e'] s then some (.bool true, s.drop 4)
      else if begins ['f', 'a', 'l', 's', 'e'] s then some (.bool false, s.drop 5)
      else if c = '[' then
        let s1 := skipJsonWs r
        match s1 with
        | ']' :: r1 => some (.arr [], r1)
        | _ => (parseJsonElems fuel s1).map (fun p => (Json.arr p.1, p.2))
      else if c = lbrace then
        let s1 := skipJsonWs r
        match s1 with
        | d :: _ =>
          if d = rbrace then some (.obj [], s1.drop 1)
          else (parseJsonMembers fuel s1).map (fun p => (Json.obj p.1, p.2))
        | [] => none
      else (parseJsonNumber s).map (fun p => (Json.num p.1.1 p.1.2, p.2))

/-- Parse the non-empty element list of a JSON array, including the
closing bracket. -/
def parseJsonElems : Nat → Str → Option (List Json × Str)
  | 0, _ => none
  | Nat.succ fuel, s =>
    match parseJsonValue fuel s with
    | none => none
    | some (v, rest) =>
      match skipJsonWs rest with
      | ',' :: r2 => (parseJsonElems fuel r2).map (fun p => (v :: p.1, p.2))
      | ']' :: r2 => some ([v], r2)
      | _ => none

/-- Parse the non-empty member list of a JSON object, including the
closing brace. -/
def parseJsonMembers : Nat → Str → Option (List (Str × Json) × Str)
  | 0, _ => none
  | Nat.succ fuel, s =>
    match skipJsonWs s with
    | c :: r =>
      if c = '"' then
        match parseStringBody r with
        | none => none
        | some (key, rest) =>
          match skipJsonWs rest with
          | ':' :: r2 =>
            match parseJsonValue fuel r2 with
            | none => none
            | some (v, rest2) =>
              match skipJsonWs rest2 with
              | ',' :: r3 => (parseJsonMembers fuel r3).map (fun p => ((key, v) :: p.1, p.2))
              | d :: r3 =>
                if d = rbrace then some ([(key, v)], r3) else none
              | [] => none
          | _ => none
      else none
    | [] => none

end

/-- `JSON.parse`: parse a complete JSON document; trailing non-whitespace
is an error.  The fuel `t.length + 1` is sufficient because every
recursive call strictly consumes at least one input character first. -/
def jsonParse (t : Str) : Option Json :=
  match parseJsonValue (t.length + 1) t with
  | some (v, rest) => if skipJsonWs rest = [] then some v else none
  | none => none

/-- JS truthiness of a parsed JSON value (`if (gptResponse)`,
`value || default`). -/
def jsTruthy : Json → Bool
  | .null => false
  | .bool b => b
  | .num n _ => decide (n ≠ 0)
  | .str s => decide (s ≠ [])
  | .arr _ => true
  | .obj _ => true

/-- JS property access `v[key]` on a parsed value: `none` models
`undefined`.  For duplicate keys `JSON.parse` keeps the last occurrence,
so lookup prefers the rightmost binding. -/
def jsGetField (v : Json) (key : Str) : Option Json :=
  match v with
  | .obj fields => lookupLast fields key
  | _ => none
where
  lookupLast : List (Str × Json) → Str → Option Json
    | [], _ => none
    | (k, x) :: rest, key =>
      match lookupLast rest key with
      | some y => some y
      | none => if k = key then some x else none

/-! ## Extraction strategies (`extractJsonFromGptResponse`,
mathSolverApi.ts lines 486-557)

The cascade: (1) direct `JSON.parse`; (2) the code-fence regex
``/```(?:json)?\s*(\{[\s\S]*?\})\s*```/gi`` — first match, group 1 parsed;
(3) the brace regex `/\{[^{}]*(?:\{[^{}]*\}[^{}]*)*\}/g` — all matches,
parsed in order until one succeeds; (4) four marker patterns tried in
order, first match of each, group trimmed and parsed.  Regex leftmost
matching is modelled by scanning start positions left to right; lazy
groups stop at the first position where the pattern tail matches; greedy
`\s*` before a non-whitespace literal deterministically takes the maximal
whitespace run. -/

/-- Regex `\s` whitespace (the characters relevant to this codebase:
space, tab, line feed, carriage return, vertical tab, form feed,
no-break space). -/
def isRegexWs (c : Char) : Bool :=
  c = ' ' || c = '\t' || c = '\n' || c = '\r' ||
  c = Char.ofNat 11 || c = Char.ofNat 12 || c = Char.ofNat 160

/-- Drop leading regex whitespace (greedy `\s*`). -/
def skipRegexWs : Str → Str
  | [] => []
  | c :: cs => if isRegexWs c then skipRegexWs cs else c :: cs

/-- JS `String.trim`. -/
def jsTrim (s : Str) : Str := (skipRegexWs ((skipRegexWs s).reverse)).reverse

/-- Case-insensitive literal match at the start of `s` (for the `i` regex
flag). -/
def beginsCI : Str → Str → Bool
  | [], _ => true
  | _ :: _, [] => false
  | p :: ps, c :: cs => (p.toLower = c.toLower) && beginsCI ps cs

/-- A triple backtick. -/
def bq3 : Str := [btick, btick, btick]

/-- The tail `\s*` followed by a triple backtick matches here. -/
def fenceTailOk (s : Str) : Bool := begins bq3 (skipRegexWs s)

/-- Lazy scan for the closing brace of the code-fence group
`(\{[\s\S]*?\})`: the group ends at the first `}` after which
`\s*` + triple backtick matches. -/
def fenceInterior : Str → Option Str
  | [] => none
  | c :: cs =>
    if c = rbrace ∧ fenceTailOk cs then some []
    else (fenceInterior cs).map (fun i => c :: i)

/-- The code-fence regex matching at the start of `s`: returns group 1
(the brace-delimited block). -/
def codeFenceAt (s : Str) : Option Str :=
  if begins bq3 s then
    let s1 := s.drop 3
    let s2 := if beginsCI ['j', 's', 'o', 'n'] s1 then s1.drop 4 else s1
    let s3 := skipRegexWs s2
    match s3 with
    | c :: cs =>
      if c = lbrace then (fenceInterior cs).map (fun i => lbrace :: (i ++ [rbrace]))
      else none
    | [] => none
  else none

/-- Leftmost match of the code-fence regex (strategy 2). -/
def findCodeFence : Str → Option Str
  | [] => none
  | c :: cs =>
    match codeFenceAt (c :: cs) with
    | some g => some g
    | none => findCodeFence cs

/-- Characters other than braces (`[^{}]`). -/
def notBrace (c : Char) : Bool := !(c = lbrace || c = rbrace)

/-- Match the brace regex `\{[^{}]*(?:\{[^{}]*\}[^{}]*)*\}` after its
opening brace: non-brace runs alternate with one-level `{…}` groups until
the closing brace.  Returns the matched remainder (including the final
`}`) and the rest of the input.  Fuel-indexed; each step consumes at
least two characters. -/
def braceAlt : Nat → Str → Option (Str × Str)
  | 0, _ => none
  | Nat.succ fuel, s =>
    let p := s.span notBrace
    match p.2 with
    | [] => none
    | c :: r2 =>
      if c = rbrace then some (p.1 ++ [rbrace], r2)
      else
        let q := r2.span notBrace
        match q.2 with
        | d :: r4 =>
          if d = rbrace then
            (braceAlt fuel r4).map
              (fun m => (p.1 ++ lbrace :: (q.1 ++ rbrace :: m.1), m.2))
          else none
        | [] => none

/-- The brace regex matching at the start of `s`. -/
def braceMatchStart (s : Str) : Option (Str × Str) :=
  match s with
  | c :: cs =>
    if c = lbrace then (braceAlt (cs.length + 1) cs).map (fun m => (lbrace :: m.1, m.2))
    else none
  | [] => none

/-- All non-overlapping leftmost matches of the brace regex
(JS `text.match(...)` with the `g` flag). -/
def allBraceMatches : Nat → Str → List Str
  | 0, _ => []
  | Nat.succ fuel, s =>
    match s with
    | [] => []
    | c :: cs =>
      match braceMatchStart (c :: cs) with
      | some (m, rem) => m :: allBraceMatches fuel rem
      | none => allBraceMatches fuel cs

/-- Strategy 3 match list. -/
def braceMatches (t : Str) : List Str := allBraceMatches (t.length + 1) t

/-- Try `JSON.parse` on each candidate in order; first success wins. -/
def firstParseOfList : List Str → Option Json
  | [] => none
  | m :: ms =>
    match jsonParse m with
    | some v => some v
    | none => firstParseOfList ms

/-- Lazy group of the marker fence patterns: the group ends at the first
position where `\s*` + triple backtick matches. -/
def lazyUntilFence : Str → Option Str
  | [] => none
  | c :: cs =>
    if fenceTailOk (c :: cs) then some []
    else (lazyUntilFence cs).map (fun g => c :: g)

/-- Lazy group ending at the first case-insensitive occurrence of `pat`. -/
def lazyUntilLitCI (pat : Str) : Str → Option Str
  | [] => none
  | c :: cs =>
    if beginsCI pat (c :: cs) then some []
    else (lazyUntilLitCI pat cs).map (fun g => c :: g)

/-- Lazy group of the `JSON:` marker pattern, ending at the first `\n\n`,
at a final `\n`, or at the end of input (the `(?:\n\n|\n$|$)` tail; this
always succeeds). -/
def lazyUntilDoubleNl : Str → Str
  | [] => []
  | ['\n'] => []
  | c :: cs =>
    if begins ['\n', '\n'] (c :: cs) then []
    else c :: lazyUntilDoubleNl cs

/-- First match group of ``/```json\s*([\s\S]*?)\s*```/gi``. -/
def findMarkerFenceJson : Str → Option Str
  | [] => none
  | c :: cs =>
    if begins bq3 (c :: cs) ∧ beginsCI ['j', 's', 'o', 'n'] ((c :: cs).drop 3) then
      match lazyUntilFence (skipRegexWs ((c :: cs).drop 7)) with
      | some g => some g
      | none => findMarkerFenceJson cs
    else findMarkerFenceJson cs

/-- First match group of ``/```\s*([\s\S]*?)\s*```/gi``. -/
def findMarkerFence : Str → Option Str
  | [] => none
  | c :: cs =>
    if begins bq3 (c :: cs) then
      match lazyUntilFence (skipRegexWs ((c :: cs).drop 3)) with
      | some g => some g
      | none => findMarkerFence cs
    else findMarkerFence cs

/-- First match group of `/<json>([\s\S]*?)<\/json>/gi`. -/
def findJsonTag : Str → Option Str
  | [] => none
  | c :: cs =>
    if beginsCI ("<json>".data) (c :: cs) then
      match lazyUntilLitCI ("</json>".data) ((c :: cs).drop 6) with
      | some g => some g
      | none => findJsonTag cs
    else findJsonTag cs

/-- First match group of `/JSON:\s*([\s\S]*?)(?:\n\n|\n$|$)/gi`. -/
def findJsonColon : Str → Option Str
  | [] => none
  | c :: cs =>
    if beginsCI ("JSON:".data) (c :: cs) then
      some (lazyUntilDoubleNl (skipRegexWs ((c :: cs).drop 5)))
    else findJsonColon cs

/-- For one marker pattern: if it matched, trim the group and try
`JSON.parse`; a parse failure falls through to the next pattern. -/
def tryMarkerParse : Option Str → Option Json
  | some g => jsonParse (jsTrim g)
  | none => none

/-- Strategy 4: the `markerPatterns` loop (lines 535-553). -/
def markerStrategies (t : Str) : Option Json :=
  match tryMarkerParse (findMarkerFenceJson t) with
  | some v => some v
  | none =>
    match tryMarkerParse (findMarkerFence t) with
    | some v => some v
    | none =>
      match tryMarkerParse (findJsonTag t) with
      | some v => some v
      | none => tryMarkerParse (findJsonColon t)

/-- `extractJsonFromGptResponse` (mathSolverApi.ts lines 486-557): the
full strategy cascade.  Returns `none` (JS `null`) when the text is empty
or the literal `'undefined'`, or when every strategy fails. -/
def extractJsonFromGptResponse (t : Str) : Option Json :=
  if t = [] ∨ t = "undefined".data then none
  else
    match jsonParse t with
    | some v => some v
    | none =>
      match (match findCodeFence t with | some g => jsonParse g | none => none) with
      | some v => some v
      | none =>
        match firstParseOfList (braceMatches t) with
        | some v => some v
        | none => markerStrategies t

/-! ## Numeric solution extraction
(`extractNumericalSolution` / `parseFraction`, mathSolverApi.ts
lines 621-645) -/

/-- A JS number produced by `parseInt` / `parseFloat` / division: an exact
finite fraction, an infinity, or `NaN`.  (All values reached by the
claims are exactly representable in binary64, so exact fractions model
the JS doubles faithfully here.) -/
inductive JsNum where
  | fin (numerator denominator : ℤ)
  | inf
  | negInf
  | nan
deriving DecidableEq, Repr

/-- The rational value of a finite `JsNum`. -/
def JsNum.toRat : JsNum → Option ℚ
  | .fin n d => some ((n : ℚ) / (d : ℚ))
  | _ => none

/-- JS `parseInt(s)` (radix 10): skip leading whitespace, optional sign,
then the longest digit prefix; `NaN` when no digit is found. -/
def jsParseInt (s : Str) : JsNum :=
  let s1 := skipRegexWs s
  let signed : Bool × Str :=
    match s1 with
    | '-' :: r => (true, r)
    | '+' :: r => (false, r)
    | _ => (false, s1)
  let p := signed.2.span isDigitCh
  if p.1 = [] then .nan
  else .fin (if signed.1 then -(digitsToNat p.1 : ℤ) else (digitsToNat p.1 : ℤ)) 1

/-- JS `parseFloat(s)` on the decimal shapes produced by the numeric
regex group (`[+-]? digits`, `[+-]? digits . digits`, `[+-]? . digits`,
possibly with a trailing unconsumed part): the exact decimal value;
`NaN` when no digit is found.  (Exponent forms never reach `parseFloat`
here because the regex group admits none.) -/
def jsParseFloat (s : Str) : JsNum :=
  let s1 := skipRegexWs s
  let signed : Bool × Str :=
    match s1 with
    | '-' :: r => (true, r)
    | '+' :: r => (false, r)
    | _ => (false, s1)
  let ip := signed.2.span isDigitCh
  let nd : Option (ℤ × ℤ) :=
    match ip.2 with
    | '.' :: r2 =>
      let fq := r2.span isDigitCh
      if ip.1 = [] ∧ fq.1 = [] then none
      else
        some (((digitsToNat ip.1 * 10 ^ fq.1.length + digitsToNat fq.1 : ℕ) : ℤ),
          ((10 : ℤ) ^ fq.1.length))
    | _ =>
      if ip.1 = [] then none
      else some ((digitsToNat ip.1 : ℤ), 1)
  match nd with
  | none => .nan
  | some (n, d) => .fin (if signed.1 then -n else n) d

/-- JS division on numbers: `NaN` propagates; division by a zero value
yields `Infinity` / `-Infinity` by the sign of the dividend (and `NaN`
for `0/0`); JS division never throws. -/
def jsDiv : JsNum → JsNum → JsNum
  | .nan, _ => .nan
  | _, .nan => .nan
  | .fin a b, .fin c d =>
    if c = 0 then
      if 0 < a * b then .inf
      else if a * b < 0 then .negInf
      else .nan
    else .fin (a * d) (b * c)
  | .inf, .fin c d => if 0 ≤ c * d then .inf else .negInf
  | .negInf, .fin c d => if 0 ≤ c * d then .negInf else .inf
  | .fin _ _, .inf => .fin 0 1
  | .fin _ _, .negInf => .fin 0 1
  | .inf, .inf => .nan
  | .inf, .negInf => .nan
  | .negInf, .inf => .nan
  | .negInf, .negInf => .nan

/-- The first two parts of JS `value.split('/')`: the text before the
first `/` and the text between the first and second `/`. -/
def splitFirstTwo (s : Str) : Str × Str :=
  let p := s.span (fun c => c != '/')
  (p.1, (p.2.drop 1).takeWhile (fun c => c != '/'))

/-- `parseFraction` (mathSolverApi.ts lines 635-645): values containing a
`/` are split and evaluated by `parseInt(numerator) / parseInt(denominator)`
— unguarded, so a zero denominator produces an infinity; other values go
through `parseFloat`.  (The JS catch branch is unreachable: neither
`split`, `parseInt` nor division throws.) -/
def parseFraction (value : Str) : JsNum :=
  if value.contains '/' then
    let parts := splitFirstTwo value
    jsDiv (jsParseInt parts.1) (jsParseInt parts.2)
  else jsParseFloat value

/-- The group `([-+]?\d*\.?\d+(?:\/\d+)?)` of the numeric regex, matched
at the start of `s` (backtracking resolved: optional sign, then either
`digits`, `digits.digits` or `.digits`, then an optional `/digits`
fraction tail). -/
def numGroupAt (s : Str) : Option Str :=
  let signed : Str × Str :=
    match s with
    | c :: r => if c = '+' ∨ c = '-' then ([c], r) else ([], s)
    | [] => ([], [])
  let p := signed.2.span isDigitCh
  let core : Option (Str × Str) :=
    match p.2 with
    | '.' :: r2 =>
      match r2 with
      | d :: _ =>
        if isDigitCh d then
          let q := r2.span isDigitCh
          some (p.1 ++ '.' :: q.1, q.2)
        else if p.1 ≠ [] then some (p.1, p.2) else none
      | [] => if p.1 ≠ [] then some (p.1, p.2) else none
    | _ => if p.1 ≠ [] then some (p.1, p.2) else none
  match core with
  | none => none
  | some (numPart, s5) =>
    match s5 with
    | '/' :: s6 =>
      match s6 with
      | d :: _ =>
        if isDigitCh d then
          let q := s6.span isDigitCh
          some (signed.1 ++ numPart ++ '/' :: q.1)
        else some (signed.1 ++ numPart)
      | [] => some (signed.1 ++ numPart)
    | _ => some (signed.1 ++ numPart)

/-- Leftmost match of `/v\s*=\s*([-+]?\d*\.?\d+(?:\/\d+)?)/i` for a
variable letter `v` (`x` or `y`), returning group 1: scan for the first
position with the letter (case-insensitively), optional whitespace, `=`,
optional whitespace and a number group. -/
def varEqMatch (v : Char) : Str → Option Str
  | [] => none
  | c :: cs =>
    if c.toLower = v then
      match
        (match skipRegexWs cs with
         | '=' :: s2 => numGroupAt (skipRegexWs s2)
         | _ => none) with
      | some g => some g
      | none => varEqMatch v cs
    else varEqMatch v cs

/-- The numeric solution pair (`Solution`, mathSolverApi.ts lines 26-29). -/
structure Solution where
  x : Option JsNum
  y : Option JsNum
deriving DecidableEq, Repr

/-- `extractNumericalSolution` (lines 621-630): match `x = …` and `y = …`
in the final step text; an absent match yields `null` for that axis. -/
def extractNumericalSolution (finalStep : Str) : Solution :=
  { x := (varEqMatch 'x' finalStep).map parseFraction
    y := (varEqMatch 'y' finalStep).map parseFraction }

/-! ## `parseBackendResponse` (mathSolverApi.ts lines 562-616) -/

/-- One display step (`SolutionStep`, lines 20-24).  `calculation` keeps
the raw JSON element (`stepText`), which JS does not coerce. -/
structure SolutionStep where
  description : Str
  calculation : Json
  result : Str

/-- The mapped result (`MathSolutionResponse`, lines 31-38). -/
structure MathSolutionResponse where
  problem_type : Json
  approach : Json
  extracted_problem : Str
  steps : List SolutionStep
  solution : Solution
  raw_response : Str

/-- JS `v.field || default` on an optional parsed value. -/
def jsOrDefault (v : Option Json) (dflt : Json) : Json :=
  match v with
  | some j => if jsTruthy j then j else dflt
  | none => dflt

/-- The fallback structure used when no JSON could be extracted
(lines 577-584). -/
def fallbackGpt (resp : Str) : Json :=
  .obj [("problem_type".data, .str "Math Problem".data),
        ("approach".data, .str "AI Analysis".data),
        ("solution".data,
          .arr [.str (if resp = [] then "Unable to process the response".data else resp)])]

/-- The `solutionSteps` normalization (line 589):
`Array.isArray(solution) ? solution : [solution || "No solution provided"]`. -/
def normalizedSolutionSteps (v : Json) : List Json :=
  match jsGetField v ("solution".data) with
  | some (.arr xs) => xs
  | some j => if jsTruthy j then [j] else [.str "No solution provided".data]
  | none => [.str "No solution provided".data]

/-- The step mapping (lines 592-599): the last element is labelled as the
final answer, prior elements as `Step N`. -/
def stepsOfFrom (total : Nat) : Nat → List Json → List SolutionStep
  | _, [] => []
  | i, j :: rest =>
    (if i + 1 = total then
      SolutionStep.mk ("Final Answer".data) j ("✅ Complete".data)
     else
      SolutionStep.mk ("Step ".data ++ (Nat.repr (i + 1)).data) j []) ::
      stepsOfFrom total (i + 1) rest

/-- All steps of a solution list. -/
def stepsOf (sol : List Json) : List SolutionStep := stepsOfFrom sol.length 0 sol

/-- The normalization and mapping stage of `parseBackendResponse`
(lines 586-615), applied to the `finalGptResponse` value: field defaults,
step mapping, numeric extraction from the final step.  `.error` models
the uncaught JS `TypeError` raised when `extractNumericalSolution` invokes
`.match` on a final step that is a truthy non-string (e.g. a number):
nothing in the function catches it. -/
def buildResponse (math_equation chatgpt_response : Str) (finalGpt : Json) :
    Except Str MathSolutionResponse :=
  let sol := normalizedSolutionSteps finalGpt
  let finalStep : Json :=
    match sol.getLast? with
    | some j => if jsTruthy j then j else .str []
    | none => .str []
  match finalStep with
  | .str s =>
    .ok { problem_type :=
            jsOrDefault (jsGetField finalGpt ("problem_type".data)) (.str "Math Problem".data)
          approach :=
            jsOrDefault (jsGetField finalGpt ("approach".data))
              (.str "AI-generated solution".data)
          extracted_problem := math_equation
          steps := stepsOf sol
          solution := extractNumericalSolution s
          raw_response := chatgpt_response }
  | _ => .error ("TypeError: finalStep.match is not a function".data)

/-- `parseBackendResponse` (mathSolverApi.ts lines 562-616): extract JSON
from the response text (falling back to the canned structure when
extraction fails or yields a falsy value), then normalize and map. -/
def parseBackendResponse (math_equation chatgpt_response : Str) :
    Except Str MathSolutionResponse :=
  buildResponse math_equation chatgpt_response
    (match extractJsonFromGptResponse chatgpt_response with
     | some v => if jsTruthy v then v else fallbackGpt chatgpt_response
     | none => fallbackGpt chatgpt_response)

/-! ## Final-mode parser `parseContent`
(Math_Solver_Presentation.md, lines 567-576)

`text.split(/(\\\[[\s\S]*?\\\]|\$\$[\s\S]*?\$\$)/g)` with the capturing
group keeps the separators: the result alternates the non-matching parts
with the matched math blocks, and concatenates back to the input.  A
match at a position is an open delimiter followed by the nearest close
delimiter (lazy `[\s\S]*?`); a position where an open delimiter has no
later close has no match, and the scan moves one character right.  Each
part is then classified by `segment.match(regex)`: `math` when the
segment contains a match anywhere. -/

/-- The split regex matching at the start of `s`: the matched block and
the rest. -/
def headBlock (s : Str) : Option (Str × Str) :=
  if begins dOpen s then
    (findFirstClose dClose (s.drop 2)).map (fun p => (dOpen ++ p.1 ++ dClose, p.2))
  else if begins dollar s then
    (findFirstClose dollar (s.drop 2)).map (fun p => (dollar ++ p.1 ++ dollar, p.2))
  else none

/-- Leftmost match of the split regex: text before the match, the match,
and the rest. -/
def findFirstBlock : Str → Option (Str × Str × Str)
  | [] => none
  | c :: cs =>
    match headBlock (c :: cs) with
    | some (b, r) => some ([], b, r)
    | none => (findFirstBlock cs).map (fun x => (c :: x.1, x.2.1, x.2.2))

theorem headBlock_some {s b r : Str} (h : headBlock s = some (b, r)) :
    b ++ r = s ∧ 4 ≤ b.length := by
  simp only [headBlock] at h
  split at h
  · rename_i hb
    rcases hfc : findFirstClose dClose (s.drop 2) with _ | ⟨mid, r'⟩ <;> rw [hfc] at h
    · cases h
    · simp only [Option.map_some'] at h
      cases h
      have hmid := findFirstClose_some hfc
      have hdec : s = dOpen ++ s.drop 2 := begins_decomp hb
      constructor
      · conv_rhs => rw [hdec, ← hmid]
        simp [List.append_assoc]
      · simp [dOpen, dClose]
  · split at h
    · rename_i hb
      rcases hfc : findFirstClose dollar (s.drop 2) with _ | ⟨mid, r'⟩ <;> rw [hfc] at h
      · cases h
      · simp only [Option.map_some'] at h
        cases h
        have hmid := findFirstClose_some hfc
        have hdec : s = dollar ++ s.drop 2 := begins_decomp hb
        constructor
        · conv_rhs => rw [hdec, ← hmid]
          simp [List.append_assoc]
        · simp [dollar]
    · cases h

theorem findFirstBlock_some :
    ∀ {t pre b r : Str}, findFirstBlock t = some (pre, b, r) →
      pre ++ b ++ r = t ∧ 4 ≤ b.length := by
  intro t
  induction t with
  | nil => intro pre b r h; cases h
  | cons c cs ih =>
    intro pre b r h
    simp only [findFirstBlock] at h
    rcases hhb : headBlock (c :: cs) with _ | ⟨b', r'⟩ <;> rw [hhb] at h
    · rcases hfb : findFirstBlock cs with _ | ⟨pre', b'', r''⟩ <;> rw [hfb] at h
      · cases h
      · simp only [Option.map_some'] at h
        cases h
        have := ih hfb
        exact ⟨by simpa using this.1, this.2⟩
    · cases h
      have := headBlock_some hhb
      exact ⟨by simpa using this.1, this.2⟩

/-- The parts produced by `text.split` with the capturing group:
non-matching parts alternating with matched blocks (empty parts
included, as in JS). -/
def splitGo (t : Str) : List Str :=
  match h : findFirstBlock t with
  | none => [t]
  | some (pre, b, r) => pre :: b :: splitGo r
termination_by t.length
decreasing_by
  have := findFirstBlock_some h
  have hlen := congrArg List.length this.1
  simp only [List.length_append] at hlen
  have := this.2
  omega

/-- `segment.match(mathBlockRegex)` is non-null: the segment contains a
match of the split regex somewhere. -/
def containsMatch (s : Str) : Bool := (findFirstBlock s).isSome

/-- The final-mode parser `parseContent`
(Math_Solver_Presentation.md, lines 567-576). -/
def parseContent (t : Str) : List Seg :=
  (splitGo t).map (fun s => if containsMatch s then ⟨.math, s⟩ else ⟨.text, s⟩)

/-- Concatenation of a list of strings. -/
def strJoin (l : List Str) : Str := l.foldr (· ++ ·) []

theorem splitGo_none {t : Str} (h : findFirstBlock t = none) :
    splitGo t = [t] := by
  rw [splitGo]
  split
  · rfl
  · rename_i pre b r heq
    rw [h] at heq
    cases heq

theorem splitGo_some {t pre b r : Str} (h : findFirstBlock t = some (pre, b, r)) :
    splitGo t = pre :: b :: splitGo r := by
  rw [splitGo]
  split
  · rename_i heq
    rw [h] at heq
    cases heq
  · rename_i pre' b' r' heq
    rw [h] at heq
    cases heq
    rfl

theorem strJoin_splitGo (t : Str) : strJoin (splitGo t) = t := by
  generalize hn : t.length = n
  induction n using Nat.strong_induction_on generalizing t with
  | _ n ih =>
    rcases h : findFirstBlock t with _ | ⟨pre, b, r⟩
    · rw [splitGo_none h]
      simp [strJoin]
    · have hd := findFirstBlock_some h
      have hlt : r.length < n := by
        have hlen := congrArg List.length hd.1
        have := hd.2
        simp only [List.length_append] at hlen
        omega
      rw [splitGo_some h]
      simp only [strJoin, List.foldr_cons] at ih ⊢
      rw [show List.foldr (· ++ ·) [] (splitGo r) = r from ih r.length hlt r rfl]
      simpa [List.append_assoc] using hd.1

/-- Round-trip law for `parseContent`. -/
theorem parseContent_segsText (t : Str) : segsText (parseContent t) = t := by
  have hmap : ∀ l : List Str,
      segsText (l.map (fun s => if containsMatch s then Seg.mk .math s else Seg.mk .text s)) =
        strJoin l := by
    intro l
    induction l with
    | nil => rfl
    | cons s l ihl =>
      simp only [List.map_cons, segsText, List.foldr_cons, strJoin] at ihl ⊢
      rw [ihl]
      by_cases hc : containsMatch s = true <;> simp [hc]
  rw [parseContent, hmap, strJoin_splitGo]

/-! ## The older revision `formatContent`
(components/ChatMessageRenderer.tsx, lines 97-131)

An exec-loop over
`/(\\\[[\s\S]*?\\\]|\\\([\s\S]*?\\\)|\$\$[\s\S]*?\$\$|\$[^$\n]*?\$)/g`:
text between matches is pushed only when non-empty, every match is pushed
as math.  Note the fourth alternative: at a position starting `$$` with no
later `$$`, the single-dollar alternative still matches the two dollars as
an empty inline formula. -/

/-- The inline-math opener `\(`. -/
def iOpen : Str := ['\\', '(']

/-- The inline-math closer `\)`. -/
def iClose : Str := ['\\', ')']

/-- The lazy single-dollar alternative `\$[^$\n]*?\$` after its opening
dollar: content up to the nearest `$` with no intervening newline. -/
def inlineDollarEnd : Str → Option (Str × Str)
  | [] => none
  | c :: cs =>
    if c = '$' then some ([], cs)
    else if c = '\n' then none
    else (inlineDollarEnd cs).map (fun p => (c :: p.1, p.2))

/-- The renderer regex matching at the start of `s` (alternatives in
source order). -/
def headLatexMatch (s : Str) : Option (Str × Str) :=
  if begins dOpen s then
    (findFirstClose dClose (s.drop 2)).map (fun p => (dOpen ++ p.1 ++ dClose, p.2))
  else if begins iOpen s then
    (findFirstClose iClose (s.drop 2)).map (fun p => (iOpen ++ p.1 ++ iClose, p.2))
  else if begins dollar s then
    match findFirstClose dollar (s.drop 2) with
    | some (mid, r) => some (dollar ++ mid ++ dollar, r)
    | none => some (dollar, s.drop 2)
  else if begins ['$'] s then
    (inlineDollarEnd (s.drop 1)).map (fun p => ('$' :: (p.1 ++ ['$']), p.2))
  else none

theorem inlineDollarEnd_some :
    ∀ {cs content rest : Str}, inlineDollarEnd cs = some (content, rest) →
      content ++ '$' :: rest = cs := by
  intro cs
  induction cs with
  | nil => intro content rest h; cases h
  | cons c cs ih =>
    intro content rest h
    simp only [inlineDollarEnd] at h
    split at h
    · rename_i hc
      cases h
      simp [hc]
    · split at h
      · cases h
      · rcases hie : inlineDollarEnd cs with _ | ⟨ct', r'⟩ <;> rw [hie] at h
        · cases h
        · simp only [Option.map_some'] at h
          cases h
          simpa using ih hie

theorem headLatexMatch_some {s b r : Str} (h : headLatexMatch s = some (b, r)) :
    b ++ r = s ∧ 1 ≤ b.length := by
  simp only [headLatexMatch] at h
  split at h
  · rename_i hb
    rcases hfc : findFirstClose dClose (s.drop 2) with _ | ⟨mid, r'⟩ <;> rw [hfc] at h
    · cases h
    · simp only [Option.map_some'] at h
      cases h
      have hmid := findFirstClose_some hfc
      have hdec : s = dOpen ++ s.drop 2 := begins_decomp hb
      refine ⟨?_, by simp [dOpen, dClose]⟩
      conv_rhs => rw [hdec, ← hmid]
      simp [List.append_assoc]
  · split at h
    · rename_i hb
      rcases hfc : findFirstClose iClose (s.drop 2) with _ | ⟨mid, r'⟩ <;> rw [hfc] at h
      · cases h
      · simp only [Option.map_some'] at h
        cases h
        have hmid := findFirstClose_some hfc
        have hdec : s = iOpen ++ s.drop 2 := begins_decomp hb
        refine ⟨?_, by simp [iOpen, iClose]⟩
        conv_rhs => rw [hdec, ← hmid]
        simp [List.append_assoc]
    · split at h
      · rename_i hb
        rcases hfc : findFirstClose dollar (s.drop 2) with _ | ⟨mid, r'⟩ <;> rw [hfc] at h
        · cases h
          have hdec : s = dollar ++ s.drop 2 := begins_decomp hb
          exact ⟨hdec.symm, by simp [dollar]⟩
        · cases h
          have hmid := findFirstClose_some hfc
          have hdec : s = dollar ++ s.drop 2 := begins_decomp hb
          refine ⟨?_, by simp [dollar]⟩
          conv_rhs => rw [hdec, ← hmid]
          simp [List.append_assoc]
      · split at h
        · rename_i hb
          rcases hie : inlineDollarEnd (s.drop 1) with _ | ⟨ct, r'⟩ <;> rw [hie] at h
          · cases h
          · simp only [Option.map_some'] at h
            cases h
            have hdec : s = ['$'] ++ s.drop 1 := begins_decomp hb
            refine ⟨?_, by simp⟩
            have hct := inlineDollarEnd_some hie
            conv_rhs => rw [hdec, ← hct]
            simp
        · cases h

/-- Leftmost match of the renderer regex. -/
def findFirstLatex : Str → Option (Str × Str × Str)
  | [] => none
  | c :: cs =>
    match headLatexMatch (c :: cs) with
    | some (b, r) => some ([], b, r)
    | none => (findFirstLatex cs).map (fun x => (c :: x.1, x.2.1, x.2.2))

theorem findFirstLatex_some :
    ∀ {t pre b r : Str}, findFirstLatex t = some (pre, b, r) →
      pre ++ b ++ r = t ∧ 1 ≤ b.length := by
  intro t
  induction t with
  | nil => intro pre b r h; cases h
  | cons c cs ih =>
    intro pre b r h
    simp only [findFirstLatex] at h
    rcases hhb : headLatexMatch (c :: cs) with _ | ⟨b', r'⟩ <;> rw [hhb] at h
    · rcases hfb : findFirstLatex cs with _ | ⟨pre', b'', r''⟩ <;> rw [hfb] at h
      · cases h
      · simp only [Option.map_some'] at h
        cases h
        have := ih hfb
        exact ⟨by simpa using this.1, this.2⟩
    · cases h
      have := headLatexMatch_some hhb
      exact ⟨by simpa using this.1, this.2⟩

/-- `formatContent` (components/ChatMessageRenderer.tsx, lines 97-131). -/
def formatContent (t : Str) : List Seg :=
  match h : findFirstLatex t with
  | none => if t = [] then [] else [⟨.text, t⟩]
  | some (pre, m, r) =>
    (if pre = [] then [] else [⟨.text, pre⟩]) ++ [⟨.math, m⟩] ++ formatContent r
termination_by t.length
decreasing_by
  have := findFirstLatex_some h
  have hlen := congrArg List.length this.1
  simp only [List.length_append] at hlen
  have := this.2
  omega

theorem formatContent_none {t : Str} (h : findFirstLatex t = none) :
    formatContent t = if t = [] then [] else [⟨.text, t⟩] := by
  rw [formatContent]
  split
  · rfl
  · rename_i pre m r heq
    rw [h] at heq
    cases heq

theorem formatContent_some {t pre m r : Str} (h : findFirstLatex t = some (pre, m, r)) :
    formatContent t =
      (if pre = [] then [] else [⟨.text, pre⟩]) ++ [⟨.math, m⟩] ++ formatContent r := by
  rw [formatContent]
  split
  · rename_i heq
    rw [h] at heq
    cases heq
  · rename_i pre' m' r' heq
    rw [h] at heq
    cases heq
    rfl

/-- Round-trip law for `formatContent`. -/
theorem formatContent_segsText (t : Str) : segsText (formatContent t) = t := by
  generalize hn : t.length = n
  induction n using Nat.strong_induction_on generalizing t with
  | _ n ih =>
    rcases h : findFirstLatex t with _ | ⟨pre, m, r⟩
    · rw [formatContent_none h]
      by_cases ht : t = [] <;> simp [ht, segsText]
    · have hd := findFirstLatex_some h
      have hlt : r.length < n := by
        have hlen := congrArg List.length hd.1
        have := hd.2
        simp only [List.length_append] at hlen
        omega
      rw [formatContent_some h]
      rw [segsText_append, segsText_append]
      rw [show segsText (formatContent r) = r from ih r.length hlt r rfl]
      by_cases hp : pre = []
      · subst hp
        simpa [segsText] using hd.1
      · simp only [if_neg hp, segsText, List.foldr_cons, List.foldr_nil, List.append_nil]
        simpa [List.append_assoc] using hd.1

/-! ## Support predicates for the extractor's edge cases -/

/-- Whether a parsed value is a JSON string. -/
def isStrJson : Json → Bool
  | .str _ => true
  | _ => false

/-- The extractor recovered a truthy JSON value whose `solution` field is
the empty array — the only input class for which the mapped `steps` list
comes out empty. -/
def recoveredEmptySolution (t : Str) : Bool :=
  match extractJsonFromGptResponse t with
  | some v =>
    jsTruthy v &&
      (match jsGetField v ("solution".data) with
       | some (.arr []) => true
       | _ => false)
  | none => false

/-- The extractor recovered a truthy JSON value whose normalized solution
list ends in a truthy non-string — the only input class for which
`parseBackendResponse` throws (a `TypeError` from `finalStep.match`). -/
def recoveredBadFinalStep (t : Str) : Bool :=
  match extractJsonFromGptResponse t with
  | some v =>
    jsTruthy v &&
      (match (normalizedSolutionSteps v).getLast? with
       | some j => jsTruthy j && !(isStrJson j)
       | none => false)
  | none => false

theorem stepsOfFrom_length (total : Nat) :
    ∀ i sol, (stepsOfFrom total i sol).length = sol.length := by
  intro i sol
  induction sol generalizing i with
  | nil => rfl
  | cons j rest ih => simp [stepsOfFrom, ih]

theorem stepsOf_eq_nil_iff {sol : List Json} : stepsOf sol = [] ↔ sol = [] := by
  constructor
  · intro h
    have := congrArg List.length h
    rw [stepsOf] at this
    rw [stepsOfFrom_length] at this
    simpa using this
  · intro h
    subst h
    rfl

theorem normalizedSolutionSteps_nil_iff {v : Json} :
    normalizedSolutionSteps v = [] ↔ jsGetField v ("solution".data) = some (.arr []) := by
  rw [normalizedSolutionSteps]
  rcases hg : jsGetField v ("solution".data) with _ | j
  · simp
  · cases j with
    | arr xs => simp
    | null => simp [jsTruthy]
    | bool b => cases b <;> simp [jsTruthy]
    | num n d =>
      by_cases hn : n = 0 <;> simp [jsTruthy, hn]
    | str s =>
      by_cases hs : s = [] <;> simp [jsTruthy, hs]
    | obj fs => simp [jsTruthy]

/-- When the normalized solution list does not end in a truthy non-string,
`buildResponse` returns `.ok` and the steps are the mapped solution
list. -/
theorem buildResponse_ok (me resp : Str) (g : Json)
    (hgood : (match (normalizedSolutionSteps g).getLast? with
              | some j => jsTruthy j && !(isStrJson j)
              | none => false) = false) :
    ∃ r, buildResponse me resp g = .ok r ∧ r.steps = stepsOf (normalizedSolutionSteps g) := by
  rw [buildResponse]
  rcases hl : (normalizedSolutionSteps g).getLast? with _ | j
  · exact ⟨_, rfl, rfl⟩
  · dsimp only at hgood ⊢
    rw [hl] at hgood
    dsimp only at hgood
    by_cases ht : jsTruthy j = true
    · rw [if_pos ht]
      rw [ht] at hgood
      simp only [Bool.true_and] at hgood
      cases j with
      | str s => exact ⟨_, rfl, rfl⟩
      | null => simp [isStrJson] at hgood
      | bool b => simp [isStrJson] at hgood
      | num n d => simp [isStrJson] at hgood
      | arr xs => simp [isStrJson] at hgood
      | obj fs => simp [isStrJson] at hgood
    · rw [if_neg ht]
      exact ⟨_, rfl, rfl⟩

/-- The fallback structure always yields `.ok` with exactly one step. -/
theorem buildResponse_fallback (me resp : Str) :
    ∃ r, buildResponse me resp (fallbackGpt resp) = .ok r ∧ r.steps.length = 1 := by
  have hsol : normalizedSolutionSteps (fallbackGpt resp) =
      [.str (if resp = [] then "Unable to process the response".data else resp)] := rfl
  obtain ⟨r, hr, hsteps⟩ := buildResponse_ok me resp (fallbackGpt resp) (by
    rw [hsol]
    by_cases hresp : resp = [] <;>
      simp [hresp, List.getLast?, jsTruthy, isStrJson])
  refine ⟨r, hr, ?_⟩
  rw [hsteps, hsol, stepsOf, stepsOfFrom_length]
  rfl

/-- Totality of the extractor pipeline: unless the recovered JSON's
normalized solution list ends in a truthy non-string,
`parseBackendResponse` returns without throwing, and its `steps` list is
non-empty unless the recovered JSON carries `"solution": []`. -/
theorem parseBackendResponse_total (me t : Str)
    (hbad : recoveredBadFinalStep t = false) :
    ∃ r, parseBackendResponse me t = .ok r ∧
      (recoveredEmptySolution t = false → r.steps ≠ []) := by
  rw [parseBackendResponse]
  rcases hx : extractJsonFromGptResponse t with _ | v
  · obtain ⟨r, hr, hlen⟩ := buildResponse_fallback me t
    exact ⟨r, hr, fun _ h => by rw [h] at hlen; cases hlen⟩
  · by_cases hvt : jsTruthy v = true
    · rw [recoveredBadFinalStep, hx] at hbad
      dsimp only at hbad
      rw [hvt, Bool.true_and] at hbad
      dsimp only
      rw [if_pos hvt]
      obtain ⟨r, hr, hsteps⟩ := buildResponse_ok me t v hbad
      refine ⟨r, hr, fun hemp hnil => ?_⟩
      rw [hsteps] at hnil
      have hsolnil := stepsOf_eq_nil_iff.mp hnil
      have hfield := normalizedSolutionSteps_nil_iff.mp hsolnil
      rw [recoveredEmptySolution, hx] at hemp
      dsimp only at hemp
      rw [hvt, Bool.true_and, hfield] at hemp
      dsimp only at hemp
      cases hemp
    · dsimp only
      rw [if_neg hvt]
      obtain ⟨r, hr, hlen⟩ := buildResponse_fallback me t
      exact ⟨r, hr, fun _ h => by rw [h] at hlen; cases hlen⟩

/-! # Claims -/

/-- C1: For every input text parsed with the streaming flag set (the
component picks `parseContentStreaming` when `isStreaming`), no returned
segment of kind `math` contains an unmatched open delimiter: every math
segment is a complete delimited block including both its opening and
closing delimiter (`\[…\]` or `$$…$$`); and every text segment either
contains no open delimiter at all, or is the trailing dangling tail — an
unmatched open delimiter together with everything after it, emitted as one
`text` segment running to the end of the input. -/
theorem claim_C1 (t : Str) :
    ∀ seg ∈ parseContentStreaming t,
      (seg.kind = .math → completeMathBlock seg.content = true) ∧
      (seg.kind = .text → hasOpenDelim seg.content = false ∨
        (danglingTail seg.content = true ∧ endsWith seg.content t = true)) :=
  parseContentStreaming_safe t

/-- Witness for C1 at the input `$$y$$\[z` (a complete dollar block
followed by an unmatched open `\[`): the math segment is a complete
block, and the trailing `\[z` is a dangling text tail. -/
theorem claim_C1_witness :
    completeMathBlock ("$$y$$".data) = true ∧
    (danglingTail ("\\[z".data) = true ∧
      endsWith ("\\[z".data) ("$$y$$\\[z".data) = true) := by
  have h1 : parseContentStreaming ("$$y$$\\[z".data) =
      pushText [] ++ [⟨.math, dollar ++ "y".data ++ dollar⟩] ++
        parseContentStreaming ("\\[z".data) :=
    pcs_dollar_found rfl rfl rfl
  have h2 : parseContentStreaming ("\\[z".data) =
      pushText [] ++ [⟨.text, "\\[z".data⟩] :=
    pcs_display_notfound rfl rfl rfl
  have hps : parseContentStreaming ("$$y$$\\[z".data) =
      [⟨.math, "$$y$$".data⟩, ⟨.text, "\\[z".data⟩] := by
    rw [h1, h2]
    rfl
  constructor
  · exact (claim_C1 ("$$y$$\\[z".data) ⟨.math, "$$y$$".data⟩
      (by rw [hps]; exact List.mem_cons_self _ _)).1 rfl
  · have h2 := (claim_C1 ("$$y$$\\[z".data) ⟨.text, "\\[z".data⟩
      (by rw [hps]; simp)).2 rfl
    rcases h2 with hfalse | hgood
    · exact absurd hfalse (by decide)
    · exact hgood

/-- C2: the spec requires that a stream which completes after chunk events
`"Step 1"`, `"Step 2"` with no explicit `fullResponse` event yields exactly
one `onComplete("Step 1Step 2")`, for both the image-solve and the chat
streaming calls.  Evaluating the code at that input: the chat web loop
synthesizes the completion, but the image-solve loop dispatches no
`onComplete` at all (its `accumulatedResponse` is built and then
dropped). -/
theorem claim_C2 :
    solveMathFromImageStreamLoop
        [.chunk ("Step 1".data) ("p1".data), .chunk ("Step 2".data) ("p1".data)] =
      [.onChunk ("Step 1".data) ("p1".data), .onChunk ("Step 2".data) ("p1".data)] ∧
    solveCompletions (solveMathFromImageStreamLoop
        [.chunk ("Step 1".data) ("p1".data), .chunk ("Step 2".data) ("p1".data)]) = [] ∧
    sendChatMessageStreamLoop
        [.chunk ("Step 1".data) ("p1".data), .chunk ("Step 2".data) ("p1".data)] =
      [.onChunk ("Step 1".data), .onChunk ("Step 2".data),
       .onComplete ("Step 1Step 2".data)] :=
  ⟨rfl, rfl, rfl⟩

/-- Counterexample to C3 as stated: on the native transport path,
`ssePostXHR` keeps handing buffered `data:` lines to the dispatcher after
a `full_response` event, so `onChunk` fires after `onComplete`. -/
theorem claim_C3_counterexample :
    ssePostXHRSolveDispatch
        [.fullResponse ("X".data) ("p".data), .chunk ("Y".data) ("p".data)] =
      [.onComplete ("X".data) ("p".data), .onChunk ("Y".data) ("p".data)] ∧
    solveTerminalStops (ssePostXHRSolveDispatch
        [.fullResponse ("X".data) ("p".data), .chunk ("Y".data) ("p".data)]) = false :=
  ⟨rfl, rfl⟩

/-- C3 (amended): on the web fetch paths (reader loop and buffered-text
fallback) of both streaming calls, a `fullResponse` or `error` event
terminates dispatch — `onComplete`/`onError` is always the final callback
and no `onChunk` follows it; and the spec's chunks-then-fullResponse
example dispatches exactly the expected trace.  (The native `ssePostXHR`
path does not have this property, see the counterexample.) -/
theorem claim_C3 :
    (∀ events, solveTerminalStops (solveMathFromImageStreamLoop events) = true) ∧
    (∀ events acc, chatTerminalStops (sendChatMessageStreamLoopFrom events acc) = true) ∧
    solveMathFromImageStreamLoop
        [.chunk ("2x".data) ("p".data), .chunk (" + 5".data) ("p".data),
         .chunk (" = 13".data) ("p".data), .fullResponse ("2x + 5 = 13".data) ("p".data)] =
      [.onChunk ("2x".data) ("p".data), .onChunk (" + 5".data) ("p".data),
       .onChunk (" = 13".data) ("p".data), .onComplete ("2x + 5 = 13".data) ("p".data)] :=
  ⟨solveMathFromImageStreamLoop_stops,
   fun events acc => sendChatMessageStreamLoopFrom_stops events acc, rfl⟩

/-- C4: round-trip law in final (non-streaming) mode — concatenating the
segment contents reproduces the input exactly, both for `parseContent`
(the presentation component) and for the older `formatContent` revision. -/
theorem claim_C4 (t : Str) :
    segsText (parseContent t) = t ∧ segsText (formatContent t) = t :=
  ⟨parseContent_segsText t, formatContent_segsText t⟩

/-- Counterexample to C5 as stated: not every request is bounded by a
timeout — the streaming solve request goes through raw `fetch`/XHR with
no timeout attached. -/
theorem claim_C5_counterexample :
    (⟨"solveMathFromImageStream (web fetch)", "/solve/stream", none⟩ : RequestSite) ∈
        serviceRequestSites ∧
    serviceRequestSites.all (fun r => r.timeoutMs.isSome) = false := by
  exact ⟨by decide, rfl⟩

/-- C5 (amended): requests issued through `fetchWithTimeout` are bounded
by a configurable timeout whose default (`API_CONFIG.TIMEOUT`) is 95000 ms
and whose solve-request value is 95 seconds; on expiry the transport is
aborted and exactly one error is raised whose message reports the elapsed
seconds.  The streaming solve and chat requests, however, use the raw
transports with no timeout. -/
theorem claim_C5 :
    API_CONFIG_TIMEOUT = 95000 ∧
    (⟨"solveMathFromImage", "/solve", some 95000⟩ : RequestSite) ∈ serviceRequestSites ∧
    fetchWithTimeout 95000 .timedOutAbort =
      .error "Request timed out after 95 seconds" ∧
    (∀ status, fetchWithTimeout 95000 (.completed status) = .ok status) ∧
    fetchWithTimeout 5000 .timedOutAbort =
      .error "Request timed out after 5 seconds" ∧
    (⟨"solveMathFromImageStream (web fetch)", "/solve/stream", none⟩ : RequestSite) ∈
        serviceRequestSites ∧
    (⟨"sendChatMessageStream (web fetch)", "/chat/stream", none⟩ : RequestSite) ∈
        serviceRequestSites := by
  exact ⟨rfl, by decide, rfl, fun _ => rfl, rfl, by decide, by decide⟩

/-- Counterexample to C6 as stated: the extractor is not total-and-nonempty
for every response text.  For `{"solution":[]}` the recovered JSON's empty
solution array maps to an empty steps list; for `{"solution":[1]}` the
final step is a number, and `finalStep.match` raises an uncaught
`TypeError`. -/
theorem claim_C6_counterexample :
    (∃ r, parseBackendResponse [] ("\x7b\"solution\":[]\x7d".data) = .ok r ∧
      r.steps = []) ∧
    (∃ msg, parseBackendResponse [] ("\x7b\"solution\":[1]\x7d".data) = .error msg) :=
  ⟨⟨_, rfl, rfl⟩, ⟨_, rfl⟩⟩

/-- C6 (amended): `parseBackendResponse` returns without throwing unless
the recovered JSON's normalized solution list ends in a truthy non-string,
and its steps list is non-empty unless the recovered JSON carries
`"solution": []`; for unparsable gibberish `"???"` it returns the fallback
structure with `problem_type` `"Math Problem"` and exactly one step whose
calculation is the raw text, and for an empty text the single step carries
the `"Unable to process the response"` placeholder. -/
theorem claim_C6 :
    (∀ me t, recoveredBadFinalStep t = false →
      ∃ r, parseBackendResponse me t = .ok r ∧
        (recoveredEmptySolution t = false → r.steps ≠ [])) ∧
    parseBackendResponse [] ("???".data) =
      .ok { problem_type := .str "Math Problem".data
            approach := .str "AI Analysis".data
            extracted_problem := []
            steps := [⟨"Final Answer".data, .str "???".data, "✅ Complete".data⟩]
            solution := ⟨none, none⟩
            raw_response := "???".data } ∧
    parseBackendResponse [] [] =
      .ok { problem_type := .str "Math Problem".data
            approach := .str "AI Analysis".data
            extracted_problem := []
            steps := [⟨"Final Answer".data,
                       .str "Unable to process the response".data, "✅ Complete".data⟩]
            solution := ⟨none, none⟩
            raw_response := [] } :=
  ⟨fun me t h => parseBackendResponse_total me t h, rfl, rfl⟩

/-- Witness for C6 at the gibberish input `"???"`: its recovered final
step is not a truthy non-string, and the theorem yields the `.ok` result
with non-empty steps. -/
theorem claim_C6_witness :
    recoveredBadFinalStep ("???".data) = false ∧
    ∃ r, parseBackendResponse [] ("???".data) = .ok r ∧
      (recoveredEmptySolution ("???".data) = false → r.steps ≠ []) :=
  ⟨rfl, claim_C6.1 [] ("???".data) rfl⟩

/-- The C7 input: a triple-backtick `json` fence around the linear-equation
object. -/
def c7Input : Str :=
  ("```json\n\x7b\"problem_type\":\"Linear Equation\",\"approach\":\"Isolate x\"," ++
   "\"solution\":[\"2x=8\",\"x=4\"]\x7d\n```").data

/-- C7: direct parsing of the fenced text fails, the code-fence strategy
recovers the JSON object, and the mapped result has problem type
`Linear Equation`, exactly two steps — the first labelled `Step 1`, the
second labelled as the final-answer step — numeric solution `x = 4` and
`y` absent. -/
theorem claim_C7 :
    jsonParse c7Input = none ∧
    findCodeFence c7Input =
      some (("\x7b\"problem_type\":\"Linear Equation\",\"approach\":\"Isolate x\"," ++
             "\"solution\":[\"2x=8\",\"x=4\"]\x7d").data) ∧
    parseBackendResponse ("2x = 8".data) c7Input =
      .ok { problem_type := .str "Linear Equation".data
            approach := .str "Isolate x".data
            extracted_problem := "2x = 8".data
            steps := [⟨"Step 1".data, .str "2x=8".data, []⟩,
                      ⟨"Final Answer".data, .str "x=4".data, "✅ Complete".data⟩]
            solution := ⟨some (.fin 4 1), none⟩
            raw_response := c7Input } ∧
    JsNum.toRat (.fin 4 1) = some 4 := by
  refine ⟨rfl, rfl, rfl, ?_⟩
  norm_num [JsNum.toRat]

/-- C8: numeric extraction on
`"the answer is x = 25/16 and y is unknown"` yields `x = 25/16 = 1.5625`
and `y` absent; matching is case-insensitive (`X = 1/2` also matches); and
for each axis the extracted value is absent exactly when the pattern is
absent — never a fabricated zero. -/
theorem claim_C8 :
    extractNumericalSolution ("the answer is x = 25/16 and y is unknown".data) =
      ⟨some (.fin 25 16), none⟩ ∧
    JsNum.toRat (.fin 25 16) = some 1.5625 ∧
    extractNumericalSolution ("X = 1/2".data) = ⟨some (.fin 1 2), none⟩ ∧
    (∀ t, (extractNumericalSolution t).x = none ↔ varEqMatch 'x' t = none) ∧
    (∀ t, (extractNumericalSolution t).y = none ↔ varEqMatch 'y' t = none) := by
  refine ⟨rfl, by norm_num [JsNum.toRat], rfl, ?_, ?_⟩ <;>
    · intro t
      simp [extractNumericalSolution]

/-- C9: the streaming-mode parser also satisfies the round-trip law:
concatenating the contents of the segments returned by
`parseContentStreaming` reproduces the input exactly. -/
theorem claim_C9 (t : Str) : segsText (parseContentStreaming t) = t :=
  parseContentStreaming_segsText t

/-- C10: on a final step `x = 1/0`, numeric extraction performs the
division unguarded — `parseInt('1') / parseInt('0')` — and returns
`Infinity` for `x` rather than an absent value: the regex accepts the
digit `0` as denominator and JS division by zero does not throw. -/
theorem claim_C10 :
    extractNumericalSolution ("x = 1/0".data) = ⟨some .inf, none⟩ ∧
    parseFraction ("1/0".data) = .inf ∧
    jsDiv (jsParseInt ['1']) (jsParseInt ['0']) = .inf ∧
    (extractNumericalSolution ("x = 1/0".data)).x ≠ none := by
  exact ⟨rfl, rfl, rfl, by decide⟩

end MathSolver
